import Mathlib

/-!
Verification of the noms Blob layer and local chunk store.

This file shallowly embeds the Go sources:
  * `chunks` package (`FileStore`, `fileChunkWriter`) — both the refMap
    variant (src/unnamed/part_001) and the leveldb variant
    (src/chunks/file_store.go) share the same logical state: an
    append-only chunk file, an index mapping digest to offset, and a
    root file guarded by an advisory lock; the model below captures that
    shared state machine.
  * `types` package (`compoundBlob`, `compoundBlobReader`, `getLeaves`)
    from src/unnamed/part_000.

Machine integers (int64 / uint64 offsets and lengths) are modelled as
`Nat`: all quantities involved are non-negative byte counts far below
2^63, and the Go code performs no overflowing arithmetic on them.
Bytes are modelled as `Nat` as well; only their identity matters.
-/

namespace Noms

/-- Content hash (`ref.Ref` wraps a 20-byte SHA-1 digest). The digest is
modelled as a single `Nat`; equality is equality of digests, exactly as in
the source where `Ref` equality compares the digest array. The zero value
`⟨0⟩` plays the role of the empty `ref.Ref{}`. -/
structure Ref where
  digest : Nat
deriving DecidableEq, Repr

/-- The zero `ref.Ref{}`, denoting "no root yet". -/
def zeroRef : Ref := ⟨0⟩

/-- Logical state of a `FileStore` (both variants): the contents of the
root file (`zeroRef` when the file is absent or empty, mirroring
`readRef`), the records of the append-only chunks file (payload bytes of
each record, in append order; the `u64` length prefix is implicit), and
the index as an association list from digest to byte offset (the refMap
`map[ref.Sha1Digest]int64` / the leveldb table). -/
structure FileStore where
  root : Ref
  chunks : List (List Nat)
  index : List (Nat × Nat)
deriving DecidableEq, Repr

/-- Size in bytes of the chunks file: each record is an 8-byte little
endian length followed by its payload. Corresponds to the offset returned
by `chunkFile.Seek(0, 2)`. -/
def fileSize (chunks : List (List Nat)) : Nat :=
  (chunks.map (fun c => 8 + c.length)).sum

/-- Index lookup, `f.rm[digest]` (refMap variant) respectively
`getIndex` (leveldb variant). The map only ever receives fresh keys, so
first-match lookup in the association list is faithful. -/
def rmLookup (digest : Nat) : List (Nat × Nat) → Option Nat
  | [] => none
  | (d, i) :: rest => if d = digest then some i else rmLookup digest rest

/-- Effects performed by `FileStore.UpdateRoot`, in program order:
reading the root file (`readRef`), rewriting it
(`Seek`/`Truncate`/`Write`), and the two fsyncs `chunkFile.Sync()` and
`refMapFile.Sync()`. -/
inductive FsEvent where
  | readRoot
  | writeRoot
  | syncChunks
  | syncRefMap
deriving DecidableEq, Repr

/-- Transcription of `FileStore.UpdateRoot(current, last)`
(src/unnamed/part_001 lines 96–114): under the exclusive flock, read the
existing root; if it differs from `last`, return false having changed
nothing; otherwise truncate and rewrite the root file with `current`,
then sync the chunk file and the refMap file, and return true. The third
component records the file-system effects in the order the code performs
them. -/
def updateRoot (f : FileStore) (current last : Ref) : Bool × FileStore × List FsEvent :=
  let existing := f.root
  if existing ≠ last then
    (false, f, [FsEvent.readRoot])
  else
    (true, { f with root := current },
      [FsEvent.readRoot, FsEvent.writeRoot, FsEvent.syncChunks, FsEvent.syncRefMap])

/-- Transcription of `FileStore.Root()`: open the root file under a
shared flock and parse its contents (`readRef`); the empty or absent
file yields the zero Ref, which the model's `root` field already
represents. -/
def fileStoreRoot (f : FileStore) : Ref :=
  f.root

/-- Read the length-prefixed record starting at byte offset `off` of the
chunks file (the found path of `Get`: seek to the offset, read the `u64`
length, return a reader limited to that many bytes). Offsets stored by
the writer always fall on record boundaries. -/
def recordAt : List (List Nat) → Nat → Option (List Nat)
  | [], _ => none
  | c :: cs, off => if off = 0 then some c else recordAt cs (off - (8 + c.length))

/-- Transcription of `FileStore.Get(ref)` (src/unnamed/part_001 lines
116–129): look the digest up in the index; when absent return
`(nil, nil)` — no reader and no error; when present, seek the chunk
file to the stored offset and return a limited reader over the record.
The middle component is the returned error value (`true` would mean a
non-nil error; the function never produces one — failures go through
`d.Chk` which aborts). The last component is the store state after the
call. -/
def fileStoreGet (f : FileStore) (r : Ref) : Option (List Nat) × Bool × FileStore :=
  match rmLookup r.digest f.index with
  | none => (none, false, f)
  | some i => (recordAt f.chunks i, false, f)

/-- State of a `fileChunkWriter`: `buffer` is `none` once the writer has
been finalized (`w.buffer = nil` in the source); `written` is the byte
stream fed to the `io.MultiWriter(b, h)`, i.e. the input of the
streaming hash `h` (and, while `buffer` is live, also its contents). -/
structure ChunkWriter where
  buffer : Option (List Nat)
  written : List Nat
deriving DecidableEq, Repr

/-- Transcription of `FileStore.Put()`: a fresh writer with an empty
buffer and an empty hash state. -/
def fileStorePut : ChunkWriter :=
  { buffer := some [], written := [] }

/-- Transcription of `fileChunkWriter.Write(data)`: `d.Chk.NotNil(w.buffer,
"Write() cannot be called after Ref() or Close().")` aborts when the
buffer is nil — modelled as `none`; otherwise the data is teed into the
buffer and the hash. -/
def chunkWriterWrite (w : ChunkWriter) (data : List Nat) : Option ChunkWriter :=
  match w.buffer with
  | none => none
  | some b => some { buffer := some (b ++ data), written := w.written ++ data }

/-- Transcription of `fileChunkWriter.Close()` (src/unnamed/part_001
lines 163–184): a finalized writer (`buffer == nil`) is a no-op; when
the hash's digest is already in the index the method returns early —
note that on this path the source does NOT clear `w.buffer`; otherwise
it seeks the chunk file to its end, appends the length-prefixed record,
records `(digest, offset)` in the refMap, and clears the buffer. The
streaming hash over `written` is represented by the parameter
`hashFn`. -/
def chunkWriterClose (hashFn : List Nat → Ref) (f : FileStore) (w : ChunkWriter) :
    FileStore × ChunkWriter :=
  match w.buffer with
  | none => (f, w)
  | some b =>
    let r := hashFn w.written
    match rmLookup r.digest f.index with
    | some _ => (f, w)
    | none =>
      let i := fileSize f.chunks
      ({ f with chunks := f.chunks ++ [b], index := f.index ++ [(r.digest, i)] },
       { w with buffer := none })

/-- Transcription of `fileChunkWriter.Ref()`: close, then return the Ref
derived from the streaming hash. -/
def chunkWriterRef (hashFn : List Nat → Ref) (f : FileStore) (w : ChunkWriter) :
    Ref × FileStore × ChunkWriter :=
  let fw := chunkWriterClose hashFn f w
  (hashFn w.written, fw.1, fw.2)

/-- The empty store: no root yet, empty chunks file, empty index (the
state right after `NewFileStore` on a fresh directory). -/
def emptyFS : FileStore :=
  { root := zeroRef, chunks := [], index := [] }

/-- A concrete stand-in for the streaming SHA-1 hash, used to
instantiate `hashFn` in witnesses and concrete evaluations. -/
def sumHash : List Nat → Ref :=
  fun l => ⟨l.sum⟩

/-- The writer obtained by `Put()` followed by `Write(b)`: buffer and
hash state both hold exactly `b`. -/
def firstWriter (b : List Nat) : ChunkWriter :=
  { buffer := some b, written := b }

/-- Looking a digest up after appending an entry for that digest finds
the new entry, provided the digest was absent before. -/
theorem rmLookup_append_self (d i : Nat) :
    ∀ l : List (Nat × Nat), rmLookup d l = none →
      rmLookup d (l ++ [(d, i)]) = some i := by
  intro l
  induction l with
  | nil => intro _; simp [rmLookup]
  | cons hd tl ih =>
    obtain ⟨d1, i1⟩ := hd
    intro h
    by_cases hd1 : d1 = d
    · simp [rmLookup, hd1] at h
    · simp only [List.cons_append, rmLookup, hd1, if_false]
      exact ih (by simpa [rmLookup, hd1] using h)

/-! ### Claim C2: UpdateRoot is a compare-and-swap on the root -/

/-- Claim C2: for every FileStore state and every pair of Refs,
`UpdateRoot(new, expected)` returns true if and only if the root's
current value equals `expected`; on success a subsequent `Root()`
returns `new`; on failure the store is unchanged and `Root()` returns
the prior value. -/
theorem updateRoot_cas (f : FileStore) (new expected : Ref) :
    ((updateRoot f new expected).1 = true ↔ fileStoreRoot f = expected) ∧
    ((updateRoot f new expected).1 = true →
      fileStoreRoot (updateRoot f new expected).2.1 = new) ∧
    ((updateRoot f new expected).1 = false →
      (updateRoot f new expected).2.1 = f ∧
      fileStoreRoot (updateRoot f new expected).2.1 = fileStoreRoot f) := by
  unfold updateRoot fileStoreRoot
  by_cases h : f.root = expected
  · simp [h]
  · simp [h]

/-- Witness for C2 at a concrete store: on a store whose root file holds
the zero Ref, `UpdateRoot(⟨1⟩, zero)` succeeds and a subsequent `Root()`
returns `⟨1⟩`. -/
theorem updateRoot_cas_witness :
    (updateRoot { root := zeroRef, chunks := [], index := [] } ⟨1⟩ zeroRef).1 = true ∧
    fileStoreRoot (updateRoot { root := zeroRef, chunks := [], index := [] } ⟨1⟩ zeroRef).2.1 = ⟨1⟩ := by
  refine ⟨?_, ?_⟩
  · exact (updateRoot_cas { root := zeroRef, chunks := [], index := [] } ⟨1⟩ zeroRef).1.mpr rfl
  · exact (updateRoot_cas { root := zeroRef, chunks := [], index := [] } ⟨1⟩ zeroRef).2.1 rfl

/-! ### Claim C3: writing the same bytes twice deduplicates -/

/-- Claim C3: writing byte sequence `b` through two separate
ChunkWriters obtained from the same FileStore appends exactly one record
to the chunks file and exactly one index entry (so at most one across
the two writes); the second finalization is a no-op on the store — the
hash is already indexed — and both finalizations return the same Ref,
namely the hash of `b`. Stated for a store in which `b`'s hash is not
yet indexed (on a store that already holds it, neither write appends). -/
theorem put_dedup (hashFn : List Nat → Ref) (f : FileStore) (b : List Nat)
    (hfresh : rmLookup (hashFn b).digest f.index = none) :
    chunkWriterWrite fileStorePut b = some (firstWriter b) ∧
    (chunkWriterClose hashFn f (firstWriter b)).1.chunks = f.chunks ++ [b] ∧
    (chunkWriterClose hashFn f (firstWriter b)).1.index.length = f.index.length + 1 ∧
    chunkWriterClose hashFn (chunkWriterClose hashFn f (firstWriter b)).1 (firstWriter b)
      = ((chunkWriterClose hashFn f (firstWriter b)).1, firstWriter b) ∧
    (chunkWriterRef hashFn f (firstWriter b)).1 = hashFn b ∧
    (chunkWriterRef hashFn (chunkWriterClose hashFn f (firstWriter b)).1 (firstWriter b)).1
      = hashFn b := by
  have hclose1 :
      chunkWriterClose hashFn f (firstWriter b)
        = (FileStore.mk f.root (f.chunks ++ [b])
            (f.index ++ [((hashFn b).digest, fileSize f.chunks)]),
           ChunkWriter.mk none b) := by
    unfold chunkWriterClose firstWriter
    simp [hfresh]
  have hfound :
      rmLookup (hashFn b).digest
        (f.index ++ [((hashFn b).digest, fileSize f.chunks)]) = some (fileSize f.chunks) :=
    rmLookup_append_self _ _ _ hfresh
  refine ⟨rfl, ?_, ?_, ?_, rfl, rfl⟩
  · rw [hclose1]
  · rw [hclose1]; simp
  · rw [hclose1]
    unfold chunkWriterClose firstWriter
    simp [hfound]

/-- Witness for C3: on the empty store with the concrete hash, writing
`[1, 2]` twice appends the single record `[1, 2]` and the second close
is a no-op. -/
theorem put_dedup_witness :
    (chunkWriterClose sumHash emptyFS (firstWriter [1, 2])).1.chunks = [[1, 2]] ∧
    chunkWriterClose sumHash (chunkWriterClose sumHash emptyFS (firstWriter [1, 2])).1
        (firstWriter [1, 2])
      = ((chunkWriterClose sumHash emptyFS (firstWriter [1, 2])).1, firstWriter [1, 2]) := by
  have h := put_dedup sumHash emptyFS [1, 2] (by decide)
  exact ⟨h.2.1, h.2.2.2.1⟩

/-! ### Claim C5: durability ordering inside UpdateRoot -/

/-- Claim C5 (refuted by the code): the claim states that on every
successful `UpdateRoot` the chunk data and index are fsynced BEFORE the
root file is rewritten. Evaluating the transcribed effect trace at a
concrete succeeding call shows the code performs `writeRoot` first and
only then `chunkFile.Sync()` and `refMapFile.Sync()`: the sync events
follow the root rewrite in program order. -/
theorem updateRoot_syncs_after_root_write :
    (updateRoot { root := zeroRef, chunks := [[7]], index := [(3, 0)] } ⟨1⟩ zeroRef).1 = true ∧
    (updateRoot { root := zeroRef, chunks := [[7]], index := [(3, 0)] } ⟨1⟩ zeroRef).2.2
      = [FsEvent.readRoot, FsEvent.writeRoot, FsEvent.syncChunks, FsEvent.syncRefMap] ∧
    ((updateRoot { root := zeroRef, chunks := [[7]], index := [(3, 0)] } ⟨1⟩ zeroRef).2.2.take 2
      = [FsEvent.readRoot, FsEvent.writeRoot]) := by
  refine ⟨rfl, by decide, by decide⟩

/-! ### Claim C7: Get on an unknown Ref is absence, not an error -/

/-- Claim C7: for every Ref whose digest is not in the store's index,
`Get` returns a nil reader and a nil error, and leaves the store
unchanged — absence is distinguished from failure. -/
theorem get_absent (f : FileStore) (r : Ref)
    (h : rmLookup r.digest f.index = none) :
    fileStoreGet f r = (none, false, f) := by
  unfold fileStoreGet
  rw [h]

/-- Witness for C7: looking up the unknown Ref `⟨5⟩` in the empty store
returns absence without error and the store unchanged. -/
theorem get_absent_witness :
    fileStoreGet emptyFS ⟨5⟩ = (none, false, emptyFS) :=
  get_absent emptyFS ⟨5⟩ (by decide)

/-! ### Claim C8: the ChunkWriter state machine -/

/-- Claim C8 (refuted by the code): the claim states that after the
first `Close()` the writer is Finalized and `Write` is an error. On a
store that already indexes the writer's hash, `Close()` returns without
clearing `w.buffer` (the early dedup return in `fileChunkWriter.Close`),
so a subsequent `Write` still succeeds — the writer never transitions to
Finalized, contradicting the source's own assertion message
"Write() cannot be called after Ref() or Close().". On a fresh store the
same sequence does make the later `Write` abort, confirming the dedup
path as the divergence. -/
theorem write_after_close_dedup_succeeds :
    chunkWriterClose sumHash { root := zeroRef, chunks := [[5]], index := [(5, 0)] }
        (firstWriter [5])
      = ({ root := zeroRef, chunks := [[5]], index := [(5, 0)] }, firstWriter [5]) ∧
    chunkWriterWrite (firstWriter [5]) [9]
      = some { buffer := some [5, 9], written := [5, 9] } ∧
    chunkWriterWrite (chunkWriterClose sumHash emptyFS (firstWriter [5])).2 [9] = none := by
  refine ⟨by decide, by decide, by decide⟩

/-! ## The Blob layer (src/unnamed/part_000)

A `compoundBlob` holds parallel `offsets` and `futures`; for reading,
only the resolved tree shape matters, so a Blob is modelled as the tree
of its fully dereferenced children (a `Future.Deref` failure is fatal in
the source and outside the claims below). `blobLeaf` is not under src/;
per the spec it is a Blob whose payload is a contiguous byte buffer and
whose `Reader()` yields exactly those bytes. -/

/-- A resolved Blob tree: a leaf with its byte payload, or a compound
with its ordered children (`futures`, dereferenced). -/
inductive Blob where
  | leaf (bytes : List Nat)
  | compound (children : List Blob)

mutual

/-- All blobLeaf payloads reachable from a Blob in depth-first
left-to-right order — the sequence `getLeaves` writes to its output
channel (order proved against the concurrent semantics in the C6
development below). -/
def inorderLeaves : Blob → List (List Nat)
  | Blob.leaf b => [b]
  | Blob.compound cs => inorderLeavesList cs

/-- In-order leaves of a list of sibling Blobs, left to right. -/
def inorderLeavesList : List Blob → List (List Nat)
  | [] => []
  | c :: cs => inorderLeaves c ++ inorderLeavesList cs

end

/-- Mutable state of a `compoundBlobReader`: `leaves` is the channel of
still-undelivered blobLeaves (`none` when the channel has not been
created, i.e. `cbr.leaves == nil`); `curLeaf` is the remaining bytes of
the current leaf's reader (`none` for `cbr.curLeaf == nil`); `eof` is
the sticky EOF flag. `currentReader`/`currentBlobIndex`/`offset` are
never read by `Read`/`Seek` and are omitted. -/
structure CBRState where
  leaves : Option (List (List Nat))
  curLeaf : Option (List Nat)
  eof : Bool
deriving DecidableEq, Repr

/-- The state of a freshly constructed reader (`compoundBlob.Reader()`):
no channel, no current leaf, eof unset. -/
def initCBR : CBRState :=
  { leaves := none, curLeaf := none, eof := false }

/-- Modelled from the spec: `blobLeaf.Reader()` is a reader over the
leaf's contiguous byte buffer (blobLeaf itself is not under src/). One
`Read` call on it, given remaining bytes `rem` and `space` free bytes in
the caller's buffer, returns the bytes copied, the bytes still
remaining, and whether the call returned `io.EOF` — which happens
exactly when `rem` was already empty; a partial or full copy returns a
nil error. -/
def leafRead (rem : List Nat) (space : Nat) : List Nat × List Nat × Bool :=
  if rem.isEmpty then ([], rem, true)
  else (rem.take space, rem.drop space, false)

/-- The `for blobLeaf := range cbr.leaves` loop of
`compoundBlobReader.Read`: take the next leaf from the channel, make it
the current leaf reader, and read from it into the free part of the
buffer; a non-EOF result (`exit`) returns from `Read` keeping `curLeaf`;
an EOF result moves on to the next leaf. When the channel is exhausted
the loop ends and `eof` is set. Returns the bytes accumulated in the
buffer, the channel remainder, the final `curLeaf`, and whether `eof`
was set. -/
def readLoop (cap : Nat) : List Nat → List (List Nat) → Option (List Nat) →
    List Nat × List (List Nat) × Option (List Nat) × Bool
  | acc, [], cur => (acc, [], cur, true)
  | acc, leaf :: rest, _ =>
    let step := leafRead leaf (cap - acc.length)
    if step.2.2 then readLoop cap (acc ++ step.1) rest (some step.2.1)
    else (acc ++ step.1, rest, some step.2.1, false)

/-- Transcription of `compoundBlobReader.Read(p)` (src/unnamed/part_000
lines 39–80) with `len(p) = cap`. Returns the bytes written into `p`,
whether the call returned `io.EOF`, and the new reader state. If `eof`
is set, return `(0, io.EOF)`. If the channel is nil, `Seek(0, 0)` first
(clear `curLeaf`, start `getLeaves` — the channel will deliver the
in-order leaves). If `curLeaf` is non-nil, read from it; a non-EOF
result sets `curLeaf = nil` and returns — discarding any bytes still in
the current leaf; an EOF result falls through to the channel loop. -/
def readStep (cb : Blob) (cap : Nat) (s : CBRState) : List Nat × Bool × CBRState :=
  if s.eof then ([], true, s)
  else
    let ls := match s.leaves with
      | none => inorderLeaves cb
      | some l => l
    match (match s.leaves with | none => none | some _ => s.curLeaf) with
    | some rem =>
      let step := leafRead rem cap
      if step.2.2 then
        let r := readLoop cap step.1 ls (some step.2.1)
        (r.1, false, { leaves := some r.2.1, curLeaf := r.2.2.1, eof := r.2.2.2 })
      else
        (step.1, false, { leaves := some ls, curLeaf := none, eof := false })
    | none =>
      let r := readLoop cap [] ls none
      (r.1, false, { leaves := some r.2.1, curLeaf := r.2.2.1, eof := r.2.2.2 })

/-- Transcription of `compoundBlobReader.Seek(offset, whence)`
(src/unnamed/part_000 lines 122–130): the offset and whence arguments
are ignored (the TODO in the source), `curLeaf` is cleared, a fresh
`getLeaves` traversal of the whole blob is started, and `(0, nil)` is
returned — for every input, including negative offsets. -/
def seekStep (cb : Blob) (off : Int) (whence : Nat) (s : CBRState) : Int × CBRState :=
  let _ := off
  let _ := whence
  (0, { leaves := some (inorderLeaves cb), curLeaf := none, eof := s.eof })

/-- Repeated `Read` calls with the given buffer capacities, collecting
all delivered bytes. -/
def readMany (cb : Blob) : List Nat → CBRState → List Nat × CBRState
  | [], s => ([], s)
  | cap :: caps, s =>
    let r := readStep cb cap s
    let rest := readMany cb caps r.2.2
    (r.1 ++ rest.1, rest.2)

/-! ### Claim C1: Read delivers the in-order concatenation -/

/-- Claim C1 (refuted by the code): the claim states that repeated
`Read` with arbitrary buffer sizes delivers exactly the concatenation of
all leaf bytes. Evaluating the transcribed reader on the compound over
the single leaf `[10, 11, 12]` with 1-byte buffers delivers only
`[10, 11]`: the second `Read` enters the `cbr.curLeaf != nil` branch,
reads one byte, and — because the inner closure returned `exit` — sets
`cbr.curLeaf = nil`, discarding the still-unread byte `12`; the next
`Read` finds the channel empty and sets `eof`. The in-order
concatenation is `[10, 11, 12]`. -/
theorem read_drops_leaf_remainder :
    (readMany (Blob.compound [Blob.leaf [10, 11, 12]]) [1, 1, 1, 1] initCBR).1 = [10, 11] ∧
    (inorderLeaves (Blob.compound [Blob.leaf [10, 11, 12]])).flatten = [10, 11, 12] ∧
    (readMany (Blob.compound [Blob.leaf [10, 11, 12]]) [1, 1, 1, 1] initCBR).1
      ≠ (inorderLeaves (Blob.compound [Blob.leaf [10, 11, 12]])).flatten := by
  refine ⟨rfl, rfl, by decide⟩

/-! ### Claim C4: Seek repositions the cursor -/

/-- Claim C4 (refuted by the code): the claim states that after
`Seek(t, Start)` the next `Read` returns bytes starting at position `t`,
and that seeking before zero fails. The transcribed `Seek` ignores its
arguments: after `Seek(2, Start)` on the compound over `[10, 11, 12]`,
a 3-byte `Read` returns all of `[10, 11, 12]` (position 0), not `[12]`;
and `Seek(-1, Start)` returns `(0, nil)` — success — instead of
failing. -/
theorem seek_is_stub :
    (seekStep (Blob.compound [Blob.leaf [10, 11, 12]]) 2 0 initCBR).1 = 0 ∧
    (readStep (Blob.compound [Blob.leaf [10, 11, 12]]) 3
        (seekStep (Blob.compound [Blob.leaf [10, 11, 12]]) 2 0 initCBR).2).1 = [10, 11, 12] ∧
    (readStep (Blob.compound [Blob.leaf [10, 11, 12]]) 3
        (seekStep (Blob.compound [Blob.leaf [10, 11, 12]]) 2 0 initCBR).2).1 ≠ [12] ∧
    (seekStep (Blob.compound [Blob.leaf [10, 11, 12]]) (-1) 0 initCBR).1 = 0 ∧
    (readStep (Blob.compound [Blob.leaf [10, 11, 12]]) 3
        (seekStep (Blob.compound [Blob.leaf [10, 11, 12]]) (-1) 0 initCBR).2).1
      = [10, 11, 12] := by
  refine ⟨rfl, rfl, by decide, rfl, rfl⟩

/-! ### Claim C10: EOF is sticky, even across Seek -/

/-- An operation applied to a `compoundBlobReader`: a `Read` with a
buffer of the given capacity, or a `Seek` with the given offset and
whence. -/
inductive ReaderOp where
  | readOp (cap : Nat)
  | seekOp (off : Int) (whence : Nat)

/-- Apply a single reader operation to the state (discarding the call's
return value). -/
def applyOp (cb : Blob) (s : CBRState) : ReaderOp → CBRState
  | ReaderOp.readOp cap => (readStep cb cap s).2.2
  | ReaderOp.seekOp off whence => (seekStep cb off whence s).2

/-- Apply a sequence of reader operations from left to right. -/
def applyOps (cb : Blob) : List ReaderOp → CBRState → CBRState
  | [], s => s
  | op :: ops, s => applyOps cb ops (applyOp cb s op)

/-- A `Read` in an eof state returns `(0, io.EOF)` and leaves the state
untouched. -/
theorem readStep_of_eof (cb : Blob) (cap : Nat) (s : CBRState) (h : s.eof = true) :
    readStep cb cap s = ([], true, s) := by
  unfold readStep
  simp [h]

/-- Only the eof branch of `Read` returns `io.EOF`: every other path
returns a nil error. -/
theorem readStep_eof_flag (cb : Blob) (cap : Nat) (s : CBRState) :
    (readStep cb cap s).2.1 = true → s.eof = true := by
  unfold readStep
  by_cases h : s.eof
  · intro _; exact h
  · simp only [h, Bool.false_eq_true, if_false]
    split
    · split <;> simp
    · simp

/-- Neither `Read` nor `Seek` ever clears the `eof` flag. -/
theorem applyOp_preserves_eof (cb : Blob) (s : CBRState) (op : ReaderOp)
    (h : s.eof = true) : (applyOp cb s op).eof = true := by
  cases op with
  | readOp cap => simp [applyOp, readStep_of_eof cb cap s h, h]
  | seekOp off whence => simpa [applyOp, seekStep] using h

/-- Claim C10: once `Read` has returned EOF the `eof` flag is set, and
every subsequent `Read` — after any sequence of intervening `Seek` and
`Read` calls — returns `(0, io.EOF)` with the state unchanged, because
`Seek` never clears the flag. -/
theorem eof_is_sticky (cb : Blob) (s : CBRState) (cap0 : Nat)
    (h : (readStep cb cap0 s).2.1 = true) :
    ∀ (ops : List ReaderOp) (cap : Nat),
      readStep cb cap (applyOps cb ops (readStep cb cap0 s).2.2)
        = ([], true, applyOps cb ops (readStep cb cap0 s).2.2) := by
  have hse : s.eof = true := readStep_eof_flag cb cap0 s h
  have hstate : (readStep cb cap0 s).2.2 = s := by
    rw [readStep_of_eof cb cap0 s hse]
  intro ops cap
  rw [hstate]
  have heof : ∀ (l : List ReaderOp) (t : CBRState), t.eof = true →
      (applyOps cb l t).eof = true := by
    intro l
    induction l with
    | nil => intro t ht; exact ht
    | cons op ops ih =>
      intro t ht
      exact ih (applyOp cb t op) (applyOp_preserves_eof cb t op ht)
  exact readStep_of_eof cb cap (applyOps cb ops s) (heof ops s hse)

/-- The compound blob of the C10 witness run. -/
def c10Blob : Blob := Blob.compound [Blob.leaf [5]]

/-- Reader state after two 2-byte reads of `c10Blob`: the whole stream
has been delivered and the `eof` flag is set. -/
def c10State : CBRState := (readStep c10Blob 2 (readStep c10Blob 2 initCBR).2.2).2.2

/-- Witness for C10: on `c10Blob`, the third read returns EOF, and after
an intervening `Seek(0, 0)` and a further read, reading again still
returns `(0, io.EOF)`. -/
theorem eof_is_sticky_witness :
    readStep c10Blob 1
        (applyOps c10Blob [ReaderOp.seekOp 0 0, ReaderOp.readOp 1]
          (readStep c10Blob 2 c10State).2.2)
      = ([], true,
          applyOps c10Blob [ReaderOp.seekOp 0 0, ReaderOp.readOp 1]
            (readStep c10Blob 2 c10State).2.2) :=
  eof_is_sticky c10Blob c10State 2 (by decide) [ReaderOp.seekOp 0 0, ReaderOp.readOp 1] 1

/-! ### Claim C9: findBlobOffset binary-searches the offsets -/

/-- Transcription of the loop of Go's `sort.Search(n, f)`: maintain
`0 ≤ i ≤ j ≤ n`, probe `h = (i + j) / 2` (the `uint` conversion only
guards against `int` overflow), and narrow to the left half when
`f h` holds, to the right half otherwise. -/
def searchLoop (f : Nat → Bool) (i j : Nat) : Nat :=
  if hij : i < j then
    let m := (i + j) / 2
    if f m then searchLoop f i m else searchLoop f (m + 1) j
  else i
termination_by j - i
decreasing_by
  · omega
  · omega

/-- Go's `sort.Search(n, f)`: the smallest index in `[0, n]` at which
`f` becomes true, assuming `f` is false then true on `[0, n)`. -/
def sortSearch (n : Nat) (f : Nat → Bool) : Nat :=
  searchLoop f 0 n

/-- Transcription of `compoundBlobReader.findBlobOffset(abs)`
(src/unnamed/part_000 lines 132–136):
`sort.Search(len(offsets), func(i) { return offsets[i] > abs })`. -/
def findBlobOffset (offsets : List Nat) (abs : Nat) : Nat :=
  sortSearch offsets.length (fun i => decide (abs < offsets.getD i 0))

/-- One-step unfolding of the `sort.Search` loop. -/
theorem searchLoop_eq (f : Nat → Bool) (i j : Nat) :
    searchLoop f i j =
      if i < j then
        if f ((i + j) / 2) then searchLoop f i ((i + j) / 2)
        else searchLoop f ((i + j) / 2 + 1) j
      else i := by
  rw [searchLoop]
  by_cases h : i < j <;> simp [h]

/-- Correctness of the `sort.Search` loop: if `f` is upward closed below
`n`, everything below `i` is false and everything in `[j, n)` is true,
then the loop returns the least true index (or `n` when there is
none). -/
theorem searchLoop_spec (n : Nat) (f : Nat → Bool)
    (hmono : ∀ a b : Nat, a ≤ b → b < n → f a = true → f b = true) :
    ∀ (d i j : Nat), j - i ≤ d → i ≤ j → j ≤ n →
      (∀ x : Nat, x < i → f x = false) →
      (∀ x : Nat, j ≤ x → x < n → f x = true) →
      (∀ x : Nat, x < searchLoop f i j → f x = false) ∧
        searchLoop f i j ≤ n ∧
        (searchLoop f i j < n → f (searchLoop f i j) = true) ∧
        i ≤ searchLoop f i j := by
  intro d
  induction d with
  | zero =>
    intro i j hd hij hjn hlow hhigh
    have hji : ¬ i < j := by omega
    rw [searchLoop_eq, if_neg hji]
    exact ⟨hlow, by omega, fun hn => hhigh i (by omega) hn, Nat.le_refl i⟩
  | succ d ih =>
    intro i j hd hij hjn hlow hhigh
    by_cases hij2 : i < j
    · have hm1 : i ≤ (i + j) / 2 := by omega
      have hm2 : (i + j) / 2 < j := by omega
      rw [searchLoop_eq, if_pos hij2]
      have hd1 : (i + j) / 2 - i ≤ d := by omega
      have hd2 : j - ((i + j) / 2 + 1) ≤ d := by omega
      have hmn : (i + j) / 2 ≤ n := by omega
      by_cases hf : f ((i + j) / 2) = true
      · rw [if_pos hf]
        exact ih i ((i + j) / 2) hd1 hm1 hmn hlow
          (fun x hx1 hx2 => hmono _ x hx1 hx2 hf)
      · rw [if_neg hf]
        have hlow2 : ∀ x : Nat, x < (i + j) / 2 + 1 → f x = false := by
          intro x hx
          rcases Nat.lt_or_ge x i with hxi | hxi
          · exact hlow x hxi
          · cases hfx : f x with
            | false => rfl
            | true => exact absurd (hmono x ((i + j) / 2) (by omega) (by omega) hfx) hf
        have h := ih ((i + j) / 2 + 1) j hd2 (by omega) hjn hlow2 hhigh
        exact ⟨h.1, h.2.1, h.2.2.1, Nat.le_trans (by omega) h.2.2.2⟩
    · rw [searchLoop_eq, if_neg hij2]
      exact ⟨hlow, by omega, fun hn => hhigh i (by omega) hn, Nat.le_refl i⟩

/-- Claim C9: for strictly increasing offsets `O` of length `k` and any
absolute position `p < O[k-1]`, `findBlobOffset(p)` returns the smallest
index `i` with `O[i] > p`: every earlier offset is at most `p`, `O[i]`
exceeds `p`, `i < k`, and consequently `p` lies in the child byte range
`[O[i-1], O[i])` (with `O[-1] = 0`). -/
theorem findBlobOffset_least (offsets : List Nat) (p : Nat)
    (hsorted : List.Sorted (· < ·) offsets)
    (hlen : 0 < offsets.length)
    (hp : p < offsets.getD (offsets.length - 1) 0) :
    (∀ x : Nat, x < findBlobOffset offsets p → offsets.getD x 0 ≤ p) ∧
      p < offsets.getD (findBlobOffset offsets p) 0 ∧
      findBlobOffset offsets p < offsets.length ∧
      (0 < findBlobOffset offsets p →
        offsets.getD (findBlobOffset offsets p - 1) 0 ≤ p) := by
  have hsort2 : ∀ a b : Nat, a < b → b < offsets.length →
      offsets.getD a 0 < offsets.getD b 0 := by
    intro a b hab hbn
    rw [List.getD_eq_getElem offsets 0 (by omega), List.getD_eq_getElem offsets 0 hbn]
    exact List.pairwise_iff_getElem.mp hsorted a b (by omega) hbn hab
  have hmono : ∀ a b : Nat, a ≤ b → b < offsets.length →
      decide (p < offsets.getD a 0) = true → decide (p < offsets.getD b 0) = true := by
    intro a b hab hbn ha
    have ha2 : p < offsets.getD a 0 := of_decide_eq_true ha
    rcases Nat.eq_or_lt_of_le hab with heq | hlt
    · rw [← heq]; exact ha
    · have := hsort2 a b hlt hbn
      exact decide_eq_true (by omega)
  have hspec := searchLoop_spec offsets.length
    (fun i => decide (p < offsets.getD i 0)) hmono offsets.length 0 offsets.length
    (by omega) (by omega) (by omega) (by omega)
    (by intro x hx1 hx2; omega)
  have hfb : findBlobOffset offsets p
      = searchLoop (fun i => decide (p < offsets.getD i 0)) 0 offsets.length := rfl
  rw [← hfb] at hspec
  rcases hspec with ⟨hbelow, hlen2, htrue, -⟩
  have hklt : findBlobOffset offsets p < offsets.length := by
    rcases Nat.lt_or_ge (findBlobOffset offsets p) offsets.length with h | h
    · exact h
    · exfalso
      have hlast : decide (p < offsets.getD (offsets.length - 1) 0) = true :=
        decide_eq_true hp
      have hfalse : decide (p < offsets.getD (offsets.length - 1) 0) = false :=
        hbelow (offsets.length - 1) (by omega)
      rw [hlast] at hfalse
      exact Bool.true_eq_false.mp hfalse
  refine ⟨?_, ?_, hklt, ?_⟩
  · intro x hx
    have h2 : ¬ p < offsets.getD x 0 := of_decide_eq_false (hbelow x hx)
    omega
  · exact of_decide_eq_true (htrue hklt)
  · intro hpos
    have h2 : ¬ p < offsets.getD (findBlobOffset offsets p - 1) 0 :=
      of_decide_eq_false (hbelow (findBlobOffset offsets p - 1) (by omega))
    omega

/-- Witness for C9: with offsets `[2, 5, 6]` (the spec's concrete
scenario) and position `3`, `findBlobOffset` returns `1`, the child
whose byte range `[2, 5)` contains position 3. -/
theorem findBlobOffset_least_witness :
    findBlobOffset [2, 5, 6] 3 = 1 ∧ 3 < [2, 5, 6].getD (findBlobOffset [2, 5, 6] 3) 0 ∧
      [2, 5, 6].getD (findBlobOffset [2, 5, 6] 3 - 1) 0 ≤ 3 := by
  have heval : findBlobOffset [2, 5, 6] 3 = 1 := by
    rw [findBlobOffset, sortSearch, searchLoop_eq]
    norm_num
    rw [searchLoop_eq]
    norm_num
    rw [searchLoop_eq]
    norm_num
  have h := findBlobOffset_least [2, 5, 6] 3 (by decide) (by decide) (by decide)
  exact ⟨heval, h.2.1, h.2.2.2 (by rw [heval]; decide)⟩

/-! ### Claim C6: concurrent getLeaves preserves in-order delivery

`getLeaves` (src/unnamed/part_000 lines 85–120) launches one goroutine
per child future; each goroutine derefs its child and fills a dedicated
channel `ch` with that child's leaves (directly for a blobLeaf,
recursively via `getLeaves` for a compound — delivering the child's
in-order leaves, which is this same property one level down). The
per-child channels are sent into the ordering channel `in` in child
order, and the consumer drains `in` sequentially, fully draining each
child channel before moving to the next. The machine below models this
network: producers run under an arbitrary scheduler (any per-child
Deref delay), the consumer follows the double `for` loop. -/

/-- Flattening the per-child leaf sequences of a sibling list. -/
theorem inorderLeavesList_eq_flatten :
    ∀ cs : List Blob, inorderLeavesList cs = (cs.map inorderLeaves).flatten := by
  intro cs
  induction cs with
  | nil => rfl
  | cons c t ih => simp [inorderLeavesList, ih]

/-- Reading every index of a list through `getD` reproduces the list. -/
theorem range_map_getD {α : Type} (d : α) :
    ∀ l : List α, (List.range l.length).map (fun i => l.getD i d) = l := by
  intro l
  induction l with
  | nil => rfl
  | cons a t ih =>
    rw [List.length_cons, List.range_succ_eq_map, List.map_cons, List.map_map]
    have hcomp : ((fun i => (a :: t).getD i d) ∘ Nat.succ) = fun i => t.getD i d := by
      funext i
      rfl
    rw [hcomp, ih]
    rfl

/-- Configuration of the `getLeaves` producer network over one compound
node: for child `i`, `pending` holds the leaves its producer has not yet
sent into its channel, `queued` holds the FIFO contents of child `i`'s
channel, and `closedc` records whether that channel has been closed
(`close(ch)` / the recursive call's `close(out)`). `cons` is the
consumer's position in the ordering channel `in`, and `out` is the
sequence of leaves delivered to the flat output channel so far. -/
structure GLConf where
  pending : List (List (List Nat))
  queued : List (List (List Nat))
  closedc : List Bool
  cons : Nat
  out : List (List Nat)

/-- Undelivered contents of child `i`'s channel: what is buffered plus
what its producer will still send. -/
def chanRem (c : GLConf) (i : Nat) : List (List Nat) :=
  c.queued.getD i [] ++ c.pending.getD i []

/-- One scheduler step of the producer network. The scheduler may run
any enabled producer at any time — this is where the claim's "arbitrary
per-child resolution delays" live; the consumer can only pop the front
of the channel it is currently draining (`for bl := range ch`), and
moves to the next channel only once the current one is closed and empty.
Channels are modelled unbounded: the Go channels' finite capacity only
restricts which produce steps are enabled, so every behaviour of the
bounded system is a behaviour of this machine. -/
inductive GLStep : GLConf → GLConf → Prop where
  | produce (c : GLConf) (i : Nat) (x : List Nat) (rest : List (List Nat))
      (hp : c.pending[i]? = some (x :: rest)) :
      GLStep c (GLConf.mk (c.pending.set i rest)
        (c.queued.set i (c.queued.getD i [] ++ [x])) c.closedc c.cons c.out)
  | closeCh (c : GLConf) (i : Nat) (hp : c.pending[i]? = some [])
      (hc : c.closedc[i]? = some false) :
      GLStep c (GLConf.mk c.pending c.queued (c.closedc.set i true) c.cons c.out)
  | consume (c : GLConf) (x : List Nat) (rest : List (List Nat))
      (hq : c.queued[c.cons]? = some (x :: rest)) :
      GLStep c (GLConf.mk c.pending (c.queued.set c.cons rest) c.closedc c.cons
        (c.out ++ [x]))
  | advance (c : GLConf) (hq : c.queued[c.cons]? = some [])
      (hc : c.closedc[c.cons]? = some true) :
      GLStep c (GLConf.mk c.pending c.queued c.closedc (c.cons + 1) c.out)

/-- Any finite interleaved run of the network. -/
abbrev GLSteps : GLConf → GLConf → Prop := Relation.ReflTransGen GLStep

/-- Initial configuration for `getLeaves` on a compound with the given
children: every producer still has its child's full in-order leaf
sequence to send, channels are empty and open, the consumer is at child
0, nothing delivered. -/
def glInit (children : List Blob) : GLConf :=
  GLConf.mk (children.map inorderLeaves) (children.map fun _ => [])
    (children.map fun _ => false) 0 []

/-- Invariant of the network: list shapes are per-child, a closed
channel's producer has nothing pending, and the delivered output
followed by the undelivered channel contents of children `cons` onward
is exactly the full in-order leaf sequence. -/
structure GLInv (children : List Blob) (c : GLConf) : Prop where
  lenP : c.pending.length = children.length
  lenQ : c.queued.length = children.length
  lenC : c.closedc.length = children.length
  closedNP : ∀ i : Nat, c.closedc[i]? = some true → c.pending[i]? = some []
  outEq : c.out ++
      ((List.range' c.cons (children.length - c.cons)).map (chanRem c)).flatten
    = inorderLeavesList children

/-- The initial configuration satisfies the invariant. -/
theorem glInv_init (children : List Blob) : GLInv children (glInit children) := by
  refine ⟨by simp [glInit], by simp [glInit], by simp [glInit], ?_, ?_⟩
  · intro i hi
    exfalso
    rw [show (glInit children).closedc = children.map (fun _ => false) from rfl,
      List.getElem?_map] at hi
    rcases h2 : children[i]? with _ | b <;> rw [h2] at hi <;> simp at hi
  · have hrem : ∀ i : Nat, chanRem (glInit children) i
        = (children.map inorderLeaves).getD i [] := by
      intro i
      unfold chanRem glInit
      simp only [List.getD_eq_getElem?_getD, List.getElem?_map]
      cases children[i]? <;> simp
    have hmapeq : (List.range' 0 (children.length - 0)).map (chanRem (glInit children))
        = children.map inorderLeaves := by
      have h1 : (List.range' 0 (children.length - 0)).map (chanRem (glInit children))
          = (List.range' 0 (children.length - 0)).map
              (fun i => (children.map inorderLeaves).getD i []) :=
        List.map_eq_map_iff.mpr (fun i _ => hrem i)
      rw [h1]
      have h2 : children.length - 0 = (children.map inorderLeaves).length := by
        simp
      rw [h2, ← List.range_eq_range']
      exact range_map_getD [] (children.map inorderLeaves)
    have hcons0 : (glInit children).cons = 0 := rfl
    show (glInit children).out ++ _ = _
    rw [hcons0]
    show ([] : List (List Nat)) ++ _ = _
    rw [List.nil_append, hmapeq, inorderLeavesList_eq_flatten]

/-- A configuration reached by one step from an invariant-satisfying
configuration satisfies the invariant. -/
theorem glInv_step (children : List Blob) (a b : GLConf)
    (hstep : GLStep a b) (hinv : GLInv children a) : GLInv children b := by
  obtain ⟨lenP, lenQ, lenC, closedNP, outEq⟩ := hinv
  cases hstep with
  | produce i x rest hp =>
    have hi : i < a.pending.length := by
      by_contra hlt
      rw [List.getElem?_eq_none (by omega)] at hp
      cases hp
    have hiq : i < a.queued.length := by omega
    refine ⟨by simpa using lenP, by simpa using lenQ, lenC, ?_, ?_⟩
    · intro j hj
      by_cases hji : j = i
      · subst hji
        have hcontra := closedNP j hj
        rw [hp] at hcontra
        cases hcontra
      · show (a.pending.set i rest)[j]? = some []
        rw [List.getElem?_set_ne (fun hceq => hji hceq.symm)]
        exact closedNP j hj
    · have hrem : chanRem (GLConf.mk (a.pending.set i rest)
          (a.queued.set i (a.queued.getD i [] ++ [x])) a.closedc a.cons a.out)
          = chanRem a := by
        funext j
        unfold chanRem
        by_cases hji : j = i
        · subst hji
          simp only [List.getD_eq_getElem?_getD, List.getElem?_set_self hi,
            List.getElem?_set_self hiq, hp]
          simp [List.append_assoc]
        · simp only [List.getD_eq_getElem?_getD,
            List.getElem?_set_ne (fun hceq => hji hceq.symm)]
      show a.out ++ _ = _
      rw [hrem]
      exact outEq
  | closeCh i hp hc =>
    refine ⟨lenP, lenQ, by simpa using lenC, ?_, ?_⟩
    · intro j hj
      by_cases hji : j = i
      · subst hji
        exact hp
      · show a.pending[j]? = some []
        refine closedNP j ?_
        rw [← hj]
        show a.closedc[j]? = (a.closedc.set i true)[j]?
        rw [List.getElem?_set_ne (fun hceq => hji hceq.symm)]
    · exact outEq
  | consume x rest hq =>
    have hcons : a.cons < a.queued.length := by
      by_contra hlt
      rw [List.getElem?_eq_none (by omega)] at hq
      cases hq
    have hconsn : a.cons < children.length := by omega
    refine ⟨lenP, by simpa using lenQ, lenC, closedNP, ?_⟩
    · have hsub : children.length - a.cons = (children.length - (a.cons + 1)) + 1 := by
        omega
      have hr : List.range' a.cons ((children.length - (a.cons + 1)) + 1)
          = a.cons :: List.range' (a.cons + 1) (children.length - (a.cons + 1)) := rfl
      show (a.out ++ [x]) ++ ((List.range' a.cons (children.length - a.cons)).map
        (chanRem (GLConf.mk a.pending (a.queued.set a.cons rest) a.closedc a.cons
          (a.out ++ [x])))).flatten = inorderLeavesList children
      rw [hsub, hr, List.map_cons, List.flatten_cons] at outEq ⊢
      have htail : (List.range' (a.cons + 1) (children.length - (a.cons + 1))).map
            (chanRem (GLConf.mk a.pending (a.queued.set a.cons rest) a.closedc a.cons
              (a.out ++ [x])))
          = (List.range' (a.cons + 1) (children.length - (a.cons + 1))).map (chanRem a) := by
        refine List.map_eq_map_iff.mpr ?_
        intro j hj
        have hjge : a.cons + 1 ≤ j := (List.mem_range'_1.mp hj).1
        unfold chanRem
        simp only [List.getD_eq_getElem?_getD,
          List.getElem?_set_ne (by omega : a.cons ≠ j)]
      have hhead : chanRem (GLConf.mk a.pending (a.queued.set a.cons rest) a.closedc a.cons
            (a.out ++ [x])) a.cons = rest ++ a.pending.getD a.cons [] := by
        unfold chanRem
        simp only [List.getD_eq_getElem?_getD, List.getElem?_set_self hcons]
        rfl
      have hheadc : chanRem a a.cons = x :: (rest ++ a.pending.getD a.cons []) := by
        unfold chanRem
        simp only [List.getD_eq_getElem?_getD, hq]
        rfl
      rw [hheadc] at outEq
      rw [htail, hhead, ← outEq]
      simp [List.append_assoc]
  | advance hq hc =>
    have hcons : a.cons < a.queued.length := by
      by_contra hlt
      rw [List.getElem?_eq_none (by omega)] at hq
      cases hq
    have hconsn : a.cons < children.length := by omega
    refine ⟨lenP, lenQ, lenC, closedNP, ?_⟩
    have hsub : children.length - a.cons = (children.length - (a.cons + 1)) + 1 := by
      omega
    have hr : List.range' a.cons ((children.length - (a.cons + 1)) + 1)
        = a.cons :: List.range' (a.cons + 1) (children.length - (a.cons + 1)) := rfl
    rw [hsub, hr, List.map_cons, List.flatten_cons] at outEq
    have hhead : chanRem a a.cons = [] := by
      unfold chanRem
      simp only [List.getD_eq_getElem?_getD, hq, closedNP a.cons hc]
      rfl
    rw [hhead, List.nil_append] at outEq
    exact outEq

/-- The invariant holds along every run. -/
theorem glInv_steps (children : List Blob) (a b : GLConf)
    (h : GLSteps a b) (ha : GLInv children a) : GLInv children b := by
  induction h with
  | refl => exact ha
  | tail hsteps hstep ih => exact glInv_step children _ _ hstep ih

/-- Claim C6: for every compound's children and every complete
interleaved run of the `getLeaves` network — producers dereferenced in
parallel with arbitrary per-child resolution delays — the leaves
delivered to the consumer are exactly the single-threaded in-order
(depth-first, left-to-right) sequence, so the bytes fed to `Read` do not
depend on the schedule. -/
theorem getLeaves_in_order (children : List Blob) (c : GLConf)
    (hsteps : GLSteps (glInit children) c) (hfin : c.cons = children.length) :
    c.out = inorderLeaves (Blob.compound children) := by
  have hinv := glInv_steps children _ _ hsteps (glInv_init children)
  have houtEq := hinv.outEq
  rw [hfin, Nat.sub_self] at houtEq
  simp only [List.range', List.map_nil, List.flatten_nil, List.append_nil] at houtEq
  exact houtEq

/-- Witness for C6: a complete four-step run (produce, close, consume,
advance) on the compound over the single leaf `[7]` delivers exactly
`[[7]]`. -/
theorem getLeaves_in_order_witness :
    GLSteps (glInit [Blob.leaf [7]]) (GLConf.mk [[]] [[]] [true] 1 [[7]]) ∧
    (GLConf.mk [[]] [[]] [true] 1 [[7]]).out
      = inorderLeaves (Blob.compound [Blob.leaf [7]]) := by
  have h1 : GLStep (glInit [Blob.leaf [7]]) (GLConf.mk [[]] [[[7]]] [false] 0 []) :=
    GLStep.produce _ 0 [7] [] rfl
  have h2 : GLStep (GLConf.mk [[]] [[[7]]] [false] 0 [])
      (GLConf.mk [[]] [[[7]]] [true] 0 []) :=
    GLStep.closeCh _ 0 rfl rfl
  have h3 : GLStep (GLConf.mk [[]] [[[7]]] [true] 0 [])
      (GLConf.mk [[]] [[]] [true] 0 [[7]]) :=
    GLStep.consume _ [7] [] rfl
  have h4 : GLStep (GLConf.mk [[]] [[]] [true] 0 [[7]])
      (GLConf.mk [[]] [[]] [true] 1 [[7]]) :=
    GLStep.advance _ rfl rfl
  have hsteps : GLSteps (glInit [Blob.leaf [7]]) (GLConf.mk [[]] [[]] [true] 1 [[7]]) :=
    Relation.ReflTransGen.head h1 (Relation.ReflTransGen.head h2
      (Relation.ReflTransGen.head h3 (Relation.ReflTransGen.single h4)))
  exact ⟨hsteps, getLeaves_in_order [Blob.leaf [7]] _ hsteps rfl⟩

end Noms
